import Mathlib

/-!
# Customer Notes — verification of the data model and query engine

A shallow embedding of the in-memory data model and the pure operations of
the Customer Notes application (`src/app/page.tsx`): folder tree with
cascading delete, note store, and the derived-view functions
(`visibleNotes`, `folderPath`).

Conventions of the embedding:
* TypeScript `string` is `String`, `number` timestamps are `Nat`,
  `string | null` is `Option String`.
* The React state arrays `folders` / `notes` are Lean lists in the same
  order; `setX(prev => e)` becomes the pure function returning `e`.
* `getFolderAndDescendants` in the source recurses through the folder list
  with no visited set, so on a cyclic `parentId` graph it does not
  terminate.  The embedding uses fuel and returns `Option`: `none` models
  divergence.  Fuel `folders.length + 1` is exact: when the recursion
  terminates every recursion path is a repetition-free chain of folder ids
  and hence no longer than `folders.length + 1`, and when it diverges a
  cycle can be pumped past any fuel.
* JavaScript truthiness on strings (`!search`, `folderDraft.trim() || ...`,
  `if (folder.parentId)`) is modelled as emptiness tests, since the only
  falsy value of JS type `string` is `""`.
-/

/-- TS `interface Folder` (src/app/page.tsx). `parentId = none` models
`null`, i.e. a top-level customer folder. -/
structure Folder where
  id : String
  parentId : Option String
  name : String
  createdAt : Nat
deriving DecidableEq, Repr

/-- TS `interface Note` (src/app/page.tsx). -/
structure Note where
  id : String
  folderId : String
  title : String
  content : String
  createdAt : Nat
  updatedAt : Nat
deriving DecidableEq, Repr

/-- The component state that the modelled operations read and write:
`folders`, `notes`, `activeFolderId` (the string "all" is the sentinel),
`activeNoteId`. -/
structure AppState where
  folders : List Folder
  notes : List Note
  activeFolderId : String
  activeNoteId : Option String
deriving DecidableEq, Repr

/-- `folders.filter((f) => f.parentId === folderId)` mapped to ids: the
direct children of `folderId`. -/
def childIds (folders : List Folder) (folderId : String) : List String :=
  (folders.filter fun f => f.parentId = some folderId).map (fun f => f.id)

/-- Fuel-indexed embedding of the recursive `getFolderAndDescendants`:
`[folderId, ...children.flatMap((c) => getFolderAndDescendants(c.id))]`.
`none` models a recursion that would not terminate within the fuel. -/
def getFolderAndDescendantsAux (folders : List Folder) : Nat → String → Option (List String)
  | 0, _ => none
  | fuel+1, folderId =>
    ((childIds folders folderId).foldr
      (fun c acc =>
        match getFolderAndDescendantsAux folders fuel c, acc with
        | some l, some ls => some (l ++ ls)
        | _, _ => none)
      (some [])).map (fun ls => folderId :: ls)

/-- The `flatMap` part of `getFolderAndDescendantsAux` over a list of child
ids, as a standalone function for reasoning. -/
def descendFold (folders : List Folder) (fuel : Nat) (cs : List String) : Option (List String) :=
  cs.foldr
    (fun c acc =>
      match getFolderAndDescendantsAux folders fuel c, acc with
      | some l, some ls => some (l ++ ls)
      | _, _ => none)
    (some [])

theorem getFolderAndDescendantsAux_succ (folders : List Folder) (fuel : Nat) (folderId : String) :
    getFolderAndDescendantsAux folders (fuel+1) folderId =
      (descendFold folders fuel (childIds folders folderId)).map (fun ls => folderId :: ls) := rfl

/-- `getFolderAndDescendants(folderId)` with the exact fuel (see the header
comment): `some` iff the source recursion terminates. -/
def getFolderAndDescendants (folders : List Folder) (folderId : String) : Option (List String) :=
  getFolderAndDescendantsAux folders (folders.length + 1) folderId

/-- One step of the child relation derived from `parentId` links: `b` is
the id of a folder in the list whose `parentId` is `a`. -/
def childStep (folders : List Folder) (a b : String) : Prop :=
  ∃ f ∈ folders, f.parentId = some a ∧ f.id = b

/-- `b` is transitively reachable from `a` via `parentId` links (zero or
more child steps). -/
def Reach (folders : List Folder) : String → String → Prop :=
  Relation.ReflTransGen (childStep folders)

/-- The `parentId` relation is acyclic: no id is its own proper transitive
descendant. -/
def Acyclic (folders : List Folder) : Prop :=
  ∀ x, ¬ Relation.TransGen (childStep folders) x x

theorem childStep_iff_mem_childIds (folders : List Folder) (a b : String) :
    childStep folders a b ↔ b ∈ childIds folders a := by
  simp only [childStep, childIds, List.mem_map, List.mem_filter, decide_eq_true_eq]
  constructor
  · rintro ⟨f, hf, hp, hid⟩
    exact ⟨f, ⟨hf, hp⟩, hid⟩
  · rintro ⟨f, ⟨hf, hp⟩, hid⟩
    exact ⟨f, hf, hp, hid⟩

-- ── Lemmas about the descendant closure ──────────────────────────────────────

theorem descendFold_nil (folders : List Folder) (fuel : Nat) :
    descendFold folders fuel [] = some [] := rfl

theorem descendFold_cons (folders : List Folder) (fuel : Nat) (c : String) (cs : List String) :
    descendFold folders fuel (c :: cs) =
      match getFolderAndDescendantsAux folders fuel c, descendFold folders fuel cs with
      | some l, some ls => some (l ++ ls)
      | _, _ => none := rfl

theorem descendFold_some_of_mem {folders : List Folder} {fuel : Nat} {cs : List String}
    {ls : List String} (h : descendFold folders fuel cs = some ls) {c : String} (hc : c ∈ cs) :
    ∃ l, getFolderAndDescendantsAux folders fuel c = some l := by
  induction cs generalizing ls with
  | nil => cases hc
  | cons d ds ih =>
    rw [descendFold_cons] at h
    rcases hd : getFolderAndDescendantsAux folders fuel d with _ | l <;> rw [hd] at h
    · cases h
    rcases hds : descendFold folders fuel ds with _ | ls' <;> rw [hds] at h
    · cases h
    rcases List.mem_cons.mp hc with rfl | hc'
    · exact ⟨l, hd⟩
    · exact ih hds hc'

theorem mem_descendFold {folders : List Folder} {fuel : Nat} {cs : List String}
    {ls : List String} (h : descendFold folders fuel cs = some ls) (x : String) :
    x ∈ ls ↔ ∃ c ∈ cs, ∃ l, getFolderAndDescendantsAux folders fuel c = some l ∧ x ∈ l := by
  induction cs generalizing ls with
  | nil =>
    rw [descendFold_nil] at h
    cases h
    simp
  | cons d ds ih =>
    rw [descendFold_cons] at h
    rcases hd : getFolderAndDescendantsAux folders fuel d with _ | l <;> rw [hd] at h
    · cases h
    rcases hds : descendFold folders fuel ds with _ | ls' <;> rw [hds] at h
    · cases h
    cases h
    simp only [List.mem_append, List.mem_cons, ih hds]
    constructor
    · rintro (hx | ⟨c, hc, lc, hlc, hx⟩)
      · exact ⟨d, Or.inl rfl, l, hd, hx⟩
      · exact ⟨c, Or.inr hc, lc, hlc, hx⟩
    · rintro ⟨c, rfl | hc, lc, hlc, hx⟩
      · rw [hd] at hlc; cases hlc; exact Or.inl hx
      · exact Or.inr ⟨c, hc, lc, hlc, hx⟩

theorem descendFold_isSome {folders : List Folder} {fuel : Nat} {cs : List String}
    (h : ∀ c ∈ cs, (getFolderAndDescendantsAux folders fuel c).isSome) :
    (descendFold folders fuel cs).isSome := by
  induction cs with
  | nil => rw [descendFold_nil]; rfl
  | cons d ds ih =>
    rw [descendFold_cons]
    rcases hd : getFolderAndDescendantsAux folders fuel d with _ | l
    · have := h d (List.mem_cons_self d ds)
      rw [hd] at this
      cases this
    rcases hds : descendFold folders fuel ds with _ | ls
    · have := ih (fun c hc => h c (List.mem_cons_of_mem d hc))
      rw [hds] at this
      cases this
    rfl

/-- Membership in a successful `getFolderAndDescendants` run is exactly
reachability through `parentId` links. -/
theorem mem_getFolderAndDescendantsAux {folders : List Folder} :
    ∀ {fuel : Nat} {folderId : String} {l : List String},
      getFolderAndDescendantsAux folders fuel folderId = some l →
      ∀ x, x ∈ l ↔ Reach folders folderId x := by
  intro fuel
  induction fuel with
  | zero => intro folderId l h; cases h
  | succ fuel ih =>
    intro folderId l h x
    rw [getFolderAndDescendantsAux_succ] at h
    rcases Option.map_eq_some'.mp h with ⟨ls, hls, rfl⟩
    simp only [List.mem_cons, mem_descendFold hls]
    constructor
    · rintro (rfl | ⟨c, hc, lc, hlc, hx⟩)
      · exact Relation.ReflTransGen.refl
      · exact Relation.ReflTransGen.head
          ((childStep_iff_mem_childIds folders folderId c).mpr hc) ((ih hlc x).mp hx)
    · intro hr
      rcases Relation.ReflTransGen.cases_head hr with rfl | ⟨c, hstep, hr'⟩
      · exact Or.inl rfl
      · have hc : c ∈ childIds folders folderId :=
          (childStep_iff_mem_childIds folders folderId c).mp hstep
        rcases descendFold_some_of_mem hls hc with ⟨lc, hlc⟩
        exact Or.inr ⟨c, hc, lc, hlc, (ih hlc x).mpr hr'⟩

theorem mem_getFolderAndDescendants {folders : List Folder} {folderId : String}
    {l : List String} (h : getFolderAndDescendants folders folderId = some l) (x : String) :
    x ∈ l ↔ Reach folders folderId x :=
  mem_getFolderAndDescendantsAux h x

-- ── Termination of the closure under acyclicity ──────────────────────────────

theorem chain_transGen_of_mem {folders : List Folder} :
    ∀ {l : List String} {a b : String},
      List.Chain' (childStep folders) (a :: l) → b ∈ l →
      Relation.TransGen (childStep folders) a b := by
  intro l
  induction l with
  | nil => intro a b _ hb; cases hb
  | cons c l' ih =>
    intro a b hch hb
    rcases List.chain'_cons.mp hch with ⟨hac, hch'⟩
    rcases List.mem_cons.mp hb with rfl | hb'
    · exact Relation.TransGen.single hac
    · exact Relation.TransGen.head hac (ih hch' hb')

theorem chain_nodup {folders : List Folder} (hA : Acyclic folders) :
    ∀ {l : List String}, List.Chain' (childStep folders) l → l.Nodup := by
  intro l
  induction l with
  | nil => intro _; exact List.nodup_nil
  | cons a l' ih =>
    intro hch
    refine List.nodup_cons.mpr ⟨fun ha => ?_, ih hch.tail⟩
    exact hA a (chain_transGen_of_mem hch ha)

theorem transGen_target_mem {folders : List Folder} {a b : String}
    (h : Relation.TransGen (childStep folders) a b) : b ∈ folders.map (fun f => f.id) := by
  induction h with
  | single hstep => rcases hstep with ⟨f, hf, _, hid⟩; exact List.mem_map.mpr ⟨f, hf, hid⟩
  | tail _ hstep _ => rcases hstep with ⟨f, hf, _, hid⟩; exact List.mem_map.mpr ⟨f, hf, hid⟩

theorem chain_length_le {folders : List Folder} (hA : Acyclic folders) {folderId : String}
    {l : List String} (hch : List.Chain' (childStep folders) (folderId :: l)) :
    l.length ≤ folders.length := by
  have hnd : l.Nodup := (List.nodup_cons.mp (chain_nodup hA hch)).2
  have hsub : l ⊆ folders.map (fun f => f.id) := fun x hx =>
    transGen_target_mem (chain_transGen_of_mem hch hx)
  have h1 : l.toFinset.card = l.length := List.toFinset_card_of_nodup hnd
  have h2 : l.toFinset ⊆ (folders.map (fun f => f.id)).toFinset := by
    intro x hx
    exact List.mem_toFinset.mpr (hsub (List.mem_toFinset.mp hx))
  calc l.length = l.toFinset.card := h1.symm
    _ ≤ (folders.map (fun f => f.id)).toFinset.card := Finset.card_le_card h2
    _ ≤ (folders.map (fun f => f.id)).length := List.toFinset_card_le _
    _ = folders.length := List.length_map _ _

theorem aux_isSome_of_bounded {folders : List Folder} :
    ∀ {k : Nat} {folderId : String},
      (∀ l, List.Chain' (childStep folders) (folderId :: l) → l.length ≤ k) →
      (getFolderAndDescendantsAux folders (k+1) folderId).isSome := by
  intro k
  induction k with
  | zero =>
    intro folderId hb
    have hnil : childIds folders folderId = [] := by
      rcases hcs : childIds folders folderId with _ | ⟨c, cs⟩
      · rfl
      · exfalso
        have hstep : childStep folders folderId c :=
          (childStep_iff_mem_childIds folders folderId c).mpr (by rw [hcs]; exact List.mem_cons_self c cs)
        have := hb [c] (List.chain'_pair.mpr hstep)
        simp at this
    rw [getFolderAndDescendantsAux_succ, hnil, descendFold_nil]
    rfl
  | succ k ih =>
    intro folderId hb
    rw [getFolderAndDescendantsAux_succ]
    have hs : (descendFold folders (k + 1) (childIds folders folderId)).isSome := by
      apply descendFold_isSome
      intro c hc
      apply ih
      intro l hch
      have hstep : childStep folders folderId c :=
        (childStep_iff_mem_childIds folders folderId c).mpr hc
      have := hb (c :: l) (List.chain'_cons.mpr ⟨hstep, hch⟩)
      simpa using this
    rcases Option.isSome_iff_exists.mp hs with ⟨ls, hls⟩
    rw [hls]
    rfl

/-- Under acyclicity the exact fuel is enough: the closure computation
succeeds. -/
theorem getFolderAndDescendants_some_of_acyclic {folders : List Folder} (hA : Acyclic folders)
    (folderId : String) : ∃ l, getFolderAndDescendants folders folderId = some l := by
  have hb : ∀ l, List.Chain' (childStep folders) (folderId :: l) → l.length ≤ folders.length :=
    fun l hch => chain_length_le hA hch
  exact Option.isSome_iff_exists.mp (aux_isSome_of_bounded hb)

-- ── Operations on the state ──────────────────────────────────────────────────

/-- `deleteFolder(id)`: removes every folder whose id is in the closure and
every note whose `folderId` is, and resets the selection when the active
folder was deleted.  `none` models the divergence of the closure
computation on a cyclic `parentId` graph. -/
def deleteFolder (s : AppState) (id : String) : Option AppState :=
  (getFolderAndDescendants s.folders id).map fun idsToDelete =>
    { folders := s.folders.filter (fun f => ¬ f.id ∈ idsToDelete),
      notes := s.notes.filter (fun n => ¬ n.folderId ∈ idsToDelete),
      activeFolderId := if s.activeFolderId ∈ idsToDelete then "all" else s.activeFolderId,
      activeNoteId := if s.activeFolderId ∈ idsToDelete then none else s.activeNoteId }

/-- JS `String.prototype.trim`, modelled structurally: strip leading and
trailing whitespace characters from the character list. -/
def strTrim (s : String) : String :=
  ⟨((s.data.dropWhile Char.isWhitespace).reverse.dropWhile Char.isWhitespace).reverse⟩

/-- `const name = folderDraft.trim() || "Untitled"`: the trimmed draft,
falling back to the literal when the trimmed string is empty (the only
falsy JS string). -/
def renamedName (folderDraft : String) : String :=
  if strTrim folderDraft = "" then "Untitled" else strTrim folderDraft

/-- `commitRename(id)`: map over the folder list replacing the name of the
folder with the given id by `renamedName`.  The rename draft is passed
explicitly. -/
def commitRename (folders : List Folder) (folderDraft : String) (id : String) : List Folder :=
  folders.map (fun f => if f.id = id then { f with name := renamedName folderDraft } else f)

/-- TS `Partial<Note>` restricted to the fields the app ever patches
(`title`, `content`); `none` means the field is absent from the patch. -/
structure NotePatch where
  title : Option String := none
  content : Option String := none
deriving DecidableEq, Repr

/-- `{ ...n, ...patch, updatedAt: Date.now() }`. -/
def applyPatch (n : Note) (p : NotePatch) (now : Nat) : Note :=
  { n with
    title := p.title.getD n.title,
    content := p.content.getD n.content,
    updatedAt := now }

/-- `updateNote(id, patch)`. -/
def updateNote (notes : List Note) (id : String) (p : NotePatch) (now : Nat) : List Note :=
  notes.map (fun n => if n.id = id then applyPatch n p now else n)

/-- `deleteNote(id)`: filters the note out and clears the active note when
it was the deleted one.  Returns the new `(notes, activeNoteId)`. -/
def deleteNote (notes : List Note) (activeNoteId : Option String) (id : String) :
    List Note × Option String :=
  (notes.filter (fun n => ¬ n.id = id),
   if activeNoteId = some id then none else activeNoteId)

/-- The fresh note record built by `addNote`. -/
def newNote (id folderId : String) (now : Nat) : Note :=
  { id := id, folderId := folderId, title := "", content := "",
    createdAt := now, updatedAt := now }

/-- `addNote()`: when the active folder is the "all" sentinel the note goes
to the first top-level folder (no-op when there is none), which also
becomes active; the note is prepended and selected. -/
def addNote (s : AppState) (newId : String) (now : Nat) : AppState :=
  if s.activeFolderId = "all" then
    if s.folders.length = 0 then s
    else
      match s.folders.find? (fun f => f.parentId = none) with
      | none => s
      | some topLevel =>
        { s with
          notes := newNote newId topLevel.id now :: s.notes,
          activeFolderId := topLevel.id,
          activeNoteId := some newId }
  else
    { s with
      notes := newNote newId s.activeFolderId now :: s.notes,
      activeNoteId := some newId }

-- ── Derived views ────────────────────────────────────────────────────────────

/-- JS `String.prototype.includes`: the second string occurs as a
contiguous substring of the first. -/
def strIncludes (s sub : String) : Bool :=
  s.data.tails.any (fun t => sub.data.isPrefixOf t)

/-- The search filter of `visibleNotes`:
`!search || title.toLowerCase().includes(search.toLowerCase()) || ...`. -/
def noteMatchesSearch (search : String) (n : Note) : Bool :=
  (search = "")
    || strIncludes n.title.toLower search.toLower
    || strIncludes n.content.toLower search.toLower

/-- The comparator `(a, b) => b.updatedAt - a.updatedAt` as the stable-sort
order: `a` may come before `b` iff `b.updatedAt ≤ a.updatedAt`. -/
def byUpdatedAtDesc (a b : Note) : Bool :=
  b.updatedAt ≤ a.updatedAt

/-- `visibleNotes`: scope to the active folder's descendant closure unless
the sentinel "all" is active, filter by the search text, and stable-sort by
descending `updatedAt` (JS `Array.prototype.sort` is stable). -/
def visibleNotes (folders : List Folder) (notes : List Note) (activeFolderId search : String) :
    Option (List Note) :=
  (if activeFolderId = "all" then some notes
   else (getFolderAndDescendants folders activeFolderId).map
     (fun ids => notes.filter (fun n => n.folderId ∈ ids))).map
    (fun cand => (cand.filter (noteMatchesSearch search)).mergeSort byUpdatedAtDesc)

/-- `folderPath(fid)`: breadcrumb for a folder.  `if (folder.parentId)` is
a JS truthiness test, false for `null` and for the empty string. -/
def folderPath (folders : List Folder) (fid : String) : String :=
  match folders.find? (fun f => f.id = fid) with
  | none => "Unknown"
  | some folder =>
    match folder.parentId with
    | some pid =>
      if pid = "" then folder.name
      else
        match folders.find? (fun f => f.id = pid) with
        | some parent => parent.name ++ " / " ++ folder.name
        | none => folder.name
    | none => folder.name

-- ── Referential integrity ────────────────────────────────────────────────────

/-- The spec's invariant: every present `parentId` references an existing
folder id, and every note's `folderId` references an existing folder. -/
def RefIntegrity (s : AppState) : Prop :=
  (∀ f ∈ s.folders, f.parentId = none ∨ ∃ g ∈ s.folders, f.parentId = some g.id) ∧
  (∀ n ∈ s.notes, ∃ g ∈ s.folders, g.id = n.folderId)

theorem deleteFolder_spec {s : AppState} {id : String} {s' : AppState}
    (h : deleteFolder s id = some s') :
    ∃ ids, getFolderAndDescendants s.folders id = some ids ∧
      s'.folders = s.folders.filter (fun f => ¬ f.id ∈ ids) ∧
      s'.notes = s.notes.filter (fun n => ¬ n.folderId ∈ ids) ∧
      s'.activeFolderId = (if s.activeFolderId ∈ ids then "all" else s.activeFolderId) ∧
      s'.activeNoteId = (if s.activeFolderId ∈ ids then none else s.activeNoteId) := by
  rcases Option.map_eq_some'.mp h with ⟨ids, hids, rfl⟩
  exact ⟨ids, hids, rfl, rfl, rfl, rfl⟩

theorem mem_filter_not_mem {α : Type} [DecidableEq α] (l : List α) (key : α → String)
    (ids : List String) (x : α) :
    x ∈ l.filter (fun y => ¬ key y ∈ ids) ↔ x ∈ l ∧ ¬ key x ∈ ids := by
  simp [List.mem_filter]

-- ── Demo states for concrete runs ────────────────────────────────────────────

def fTop : Folder := { id := "a", parentId := none, name := "Acme", createdAt := 0 }
def fSub : Folder := { id := "b", parentId := some "a", name := "Billing", createdAt := 1 }
def fOther : Folder := { id := "z", parentId := none, name := "Zeta", createdAt := 2 }
def nSub : Note :=
  { id := "n1", folderId := "b", title := "Invoice", content := "first", createdAt := 3, updatedAt := 10 }
def nOther : Note :=
  { id := "n2", folderId := "z", title := "Memo", content := "misc", createdAt := 4, updatedAt := 20 }

def demoState : AppState :=
  { folders := [fTop, fSub, fOther], notes := [nSub, nOther],
    activeFolderId := "b", activeNoteId := some "n1" }

def demoStateAfter : AppState :=
  { folders := [fOther], notes := [nOther], activeFolderId := "all", activeNoteId := none }

-- ── Claims ───────────────────────────────────────────────────────────────────

/-- C1: a successful `deleteFolder(id)` removes exactly the folders whose
id is reachable from `id` through `parentId` links (the ids in
`descendantsOf(id)`) and exactly the notes whose `folderId` is such an id;
every other folder and note stays, in order and unchanged. -/
theorem C1_deleteFolder_exact (s : AppState) (id : String) (s' : AppState)
    (h : deleteFolder s id = some s') :
    (∀ f, f ∈ s'.folders ↔ f ∈ s.folders ∧ ¬ Reach s.folders id f.id) ∧
    (∀ n, n ∈ s'.notes ↔ n ∈ s.notes ∧ ¬ Reach s.folders id n.folderId) ∧
    s'.folders.Sublist s.folders ∧ s'.notes.Sublist s.notes := by
  rcases deleteFolder_spec h with ⟨ids, hids, hf, hn, -, -⟩
  have hmem := mem_getFolderAndDescendants hids
  refine ⟨fun f => ?_, fun n => ?_, ?_, ?_⟩
  · rw [hf, mem_filter_not_mem, hmem f.id]
  · rw [hn, mem_filter_not_mem, hmem n.folderId]
  · rw [hf]; exact List.filter_sublist _
  · rw [hn]; exact List.filter_sublist _

theorem C1_witness :
    deleteFolder demoState "a" = some demoStateAfter ∧
    ((∀ f, f ∈ demoStateAfter.folders ↔
        f ∈ demoState.folders ∧ ¬ Reach demoState.folders "a" f.id) ∧
     (∀ n, n ∈ demoStateAfter.notes ↔
        n ∈ demoState.notes ∧ ¬ Reach demoState.folders "a" n.folderId) ∧
     demoStateAfter.folders.Sublist demoState.folders ∧
     demoStateAfter.notes.Sublist demoState.notes) :=
  ⟨by decide, C1_deleteFolder_exact demoState "a" demoStateAfter (by decide)⟩

/-- C2: referential integrity — no dangling `parentId` among folders and no
dangling `folderId` among notes — is preserved by every successful
`deleteFolder`. -/
theorem C2_deleteFolder_integrity (s : AppState) (id : String) (s' : AppState)
    (hInv : RefIntegrity s) (h : deleteFolder s id = some s') : RefIntegrity s' := by
  rcases deleteFolder_spec h with ⟨ids, hids, hf, hn, -, -⟩
  have hmem := mem_getFolderAndDescendants hids
  constructor
  · intro f hfmem
    rw [hf, mem_filter_not_mem] at hfmem
    rcases hfmem with ⟨hfs, hfid⟩
    rcases hInv.1 f hfs with hnone | ⟨g, hg, hpg⟩
    · exact Or.inl hnone
    · refine Or.inr ⟨g, ?_, hpg⟩
      rw [hf, mem_filter_not_mem]
      refine ⟨hg, fun hgid => ?_⟩
      apply hfid
      rw [hmem]
      exact Relation.ReflTransGen.tail ((hmem g.id).mp hgid) ⟨f, hfs, hpg, rfl⟩
  · intro n hnmem
    rw [hn, mem_filter_not_mem] at hnmem
    rcases hnmem with ⟨hns, hnid⟩
    rcases hInv.2 n hns with ⟨g, hg, hgid⟩
    refine ⟨g, ?_, hgid⟩
    rw [hf, mem_filter_not_mem]
    exact ⟨hg, fun hbad => hnid (by rw [← hgid]; exact hbad)⟩

theorem C2_witness :
    RefIntegrity demoState ∧ deleteFolder demoState "a" = some demoStateAfter ∧
    RefIntegrity demoStateAfter :=
  ⟨by unfold RefIntegrity; decide, by decide,
   C2_deleteFolder_integrity demoState "a" demoStateAfter
     (by unfold RefIntegrity; decide) (by decide)⟩

/-- C4: a returned descendant list contains the queried id itself, and
membership in it is exactly transitive reachability through `parentId`
links from the queried id. -/
theorem C4_descendants_exactly_reachable (folders : List Folder) (id : String)
    (l : List String) (h : getFolderAndDescendants folders id = some l) :
    id ∈ l ∧ ∀ x, x ∈ l ↔ Reach folders id x :=
  ⟨(mem_getFolderAndDescendants h id).mpr Relation.ReflTransGen.refl,
   mem_getFolderAndDescendants h⟩

theorem C4_witness :
    getFolderAndDescendants [fTop, fSub, fOther] "a" = some ["a", "b"] ∧
    ("a" ∈ ["a", "b"] ∧
     ∀ x, x ∈ ["a", "b"] ↔ Reach [fTop, fSub, fOther] "a" x) :=
  ⟨by decide, C4_descendants_exactly_reachable [fTop, fSub, fOther] "a" ["a", "b"] (by decide)⟩

/-- C5: when the `parentId` relation is acyclic the descendant-closure
computation terminates: with the exact fuel it returns a result for every
folder id. -/
theorem C5_descendants_terminate (folders : List Folder) (id : String)
    (hA : Acyclic folders) : ∃ l, getFolderAndDescendants folders id = some l :=
  getFolderAndDescendants_some_of_acyclic hA id

theorem acyclic_two_chain : Acyclic [fTop, fSub] := by
  intro x hx
  have hstep : ∀ a b, childStep [fTop, fSub] a b → a = "a" ∧ b = "b" := by
    rintro a b ⟨f, hf, hp, hid⟩
    rcases List.mem_cons.mp hf with rfl | hf'
    · simp [fTop] at hp
    · rcases List.mem_singleton.mp hf' with rfl
      simp only [fSub, Option.some.injEq] at hp
      exact ⟨hp.symm, hid.symm⟩
  cases hx with
  | single h1 =>
    rcases hstep _ _ h1 with ⟨rfl, hbad⟩
    exact absurd hbad (by decide)
  | tail h1 h2 =>
    rcases hstep _ _ h2 with ⟨rfl, rfl⟩
    cases h1 with
    | single h3 =>
      rcases hstep _ _ h3 with ⟨hbad, -⟩
      exact absurd hbad (by decide)
    | tail h3 h4 =>
      rcases hstep _ _ h4 with ⟨-, hbad⟩
      exact absurd hbad (by decide)

theorem C5_witness :
    Acyclic [fTop, fSub] ∧ ∃ l, getFolderAndDescendants [fTop, fSub] "a" = some l :=
  ⟨acyclic_two_chain, C5_descendants_terminate [fTop, fSub] "a" acyclic_two_chain⟩

/-- C6: after a successful `deleteFolder(id)`, if the active folder was in
the deleted closure (reachable from `id`) the selection resets to the
"all" sentinel and the active note clears; otherwise both are unchanged. -/
theorem C6_selection_reset (s : AppState) (id : String) (s' : AppState)
    (h : deleteFolder s id = some s') :
    (Reach s.folders id s.activeFolderId →
      s'.activeFolderId = "all" ∧ s'.activeNoteId = none) ∧
    (¬ Reach s.folders id s.activeFolderId →
      s'.activeFolderId = s.activeFolderId ∧ s'.activeNoteId = s.activeNoteId) := by
  rcases deleteFolder_spec h with ⟨ids, hids, -, -, ha, hn⟩
  have hmem := mem_getFolderAndDescendants hids
  constructor
  · intro hr
    have : s.activeFolderId ∈ ids := (hmem _).mpr hr
    rw [ha, hn, if_pos this, if_pos this]
    exact ⟨rfl, rfl⟩
  · intro hr
    have : ¬ s.activeFolderId ∈ ids := fun hbad => hr ((hmem _).mp hbad)
    rw [ha, hn, if_neg this, if_neg this]
    exact ⟨rfl, rfl⟩

theorem C6_witness :
    deleteFolder demoState "a" = some demoStateAfter ∧
    ((Reach demoState.folders "a" demoState.activeFolderId →
       demoStateAfter.activeFolderId = "all" ∧ demoStateAfter.activeNoteId = none) ∧
     (¬ Reach demoState.folders "a" demoState.activeFolderId →
       demoStateAfter.activeFolderId = demoState.activeFolderId ∧
       demoStateAfter.activeNoteId = demoState.activeNoteId)) :=
  ⟨by decide, C6_selection_reset demoState "a" demoStateAfter (by decide)⟩

-- ── Sorting lemmas for visibleNotes ──────────────────────────────────────────

theorem byUpdatedAtDesc_true (a b : Note) :
    byUpdatedAtDesc a b = true ↔ b.updatedAt ≤ a.updatedAt := by
  simp [byUpdatedAtDesc]

theorem byUpdatedAtDesc_trans :
    ∀ a b c : Note, byUpdatedAtDesc a b → byUpdatedAtDesc b c → byUpdatedAtDesc a c := by
  intro a b c h1 h2
  rw [byUpdatedAtDesc_true] at *
  omega

theorem byUpdatedAtDesc_total :
    ∀ a b : Note, byUpdatedAtDesc a b || byUpdatedAtDesc b a := by
  intro a b
  simp [byUpdatedAtDesc]
  omega

theorem mergeSort_sorted_desc (cand : List Note) :
    (cand.mergeSort byUpdatedAtDesc).Pairwise (fun a b => b.updatedAt ≤ a.updatedAt) := by
  have h := List.sorted_mergeSort byUpdatedAtDesc_trans byUpdatedAtDesc_total cand
  exact h.imp (fun hab => (byUpdatedAtDesc_true _ _).mp hab)

/-- Stability of the sort: for each timestamp, the notes carrying it come
out of the sort in their original relative order. -/
theorem mergeSort_filter_updatedAt (cand : List Note) (t : Nat) :
    (cand.mergeSort byUpdatedAtDesc).filter (fun n => n.updatedAt = t) =
      cand.filter (fun n => n.updatedAt = t) := by
  have hpw : (cand.filter (fun n => n.updatedAt = t)).Pairwise
      (fun a b => byUpdatedAtDesc a b = true) := by
    apply List.pairwise_of_forall_mem_list
    intro a ha b hb
    have ha' := (List.mem_filter.mp ha).2
    have hb' := (List.mem_filter.mp hb).2
    simp only [decide_eq_true_eq] at ha' hb'
    rw [byUpdatedAtDesc_true, hb', ha']
  have hsub : List.Sublist (cand.filter (fun n => n.updatedAt = t))
      (cand.mergeSort byUpdatedAtDesc) :=
    List.sublist_mergeSort byUpdatedAtDesc_trans byUpdatedAtDesc_total hpw
      (List.filter_sublist cand)
  have hsub2 : List.Sublist (cand.filter (fun n => n.updatedAt = t))
      ((cand.mergeSort byUpdatedAtDesc).filter (fun n => n.updatedAt = t)) := by
    have h2 := hsub.filter (fun n => n.updatedAt = t)
    rwa [List.filter_eq_self.mpr (fun a ha => (List.mem_filter.mp ha).2)] at h2
  have hlen : ((cand.mergeSort byUpdatedAtDesc).filter (fun n => n.updatedAt = t)).length =
      (cand.filter (fun n => n.updatedAt = t)).length :=
    ((List.mergeSort_perm cand byUpdatedAtDesc).filter _).length_eq
  exact (hsub2.eq_of_length hlen.symm).symm

/-- A successful `visibleNotes` run is the stable descending sort of a
candidate list: the scope- and search-filtered notes in original order. -/
theorem visibleNotes_spec {folders : List Folder} {notes : List Note} {afid q : String}
    {v : List Note} (h : visibleNotes folders notes afid q = some v) :
    ∃ cand, List.Sublist cand notes ∧
      (∀ n, n ∈ cand ↔ n ∈ notes ∧ (afid = "all" ∨ Reach folders afid n.folderId) ∧
          noteMatchesSearch q n = true) ∧
      v = cand.mergeSort byUpdatedAtDesc := by
  unfold visibleNotes at h
  by_cases hall : afid = "all"
  · rw [if_pos hall, Option.map_some'] at h
    refine ⟨notes.filter (noteMatchesSearch q), List.filter_sublist notes, fun n => ?_, ?_⟩
    · simp [List.mem_filter, hall]
    · exact (Option.some_inj.mp h).symm
  · rw [if_neg hall, Option.map_map] at h
    rcases Option.map_eq_some'.mp h with ⟨ids, hids, hv⟩
    simp only [Function.comp] at hv
    refine ⟨(notes.filter (fun n => n.folderId ∈ ids)).filter (noteMatchesSearch q),
      (List.filter_sublist _).trans (List.filter_sublist notes), fun n => ?_, hv.symm⟩
    simp only [List.mem_filter, decide_eq_true_eq, mem_getFolderAndDescendants hids, hall,
      false_or]
    tauto

theorem noteMatchesSearch_true (q : String) (n : Note) :
    noteMatchesSearch q n = true ↔
      (q = "" ∨ strIncludes n.title.toLower q.toLower = true ∨
        strIncludes n.content.toLower q.toLower = true) := by
  simp [noteMatchesSearch, Bool.or_eq_true, decide_eq_true_eq, or_assoc]

/-- C3: a successful `visibleNotes` run contains exactly the notes in
scope of the active folder (all of them under the "all" sentinel,
otherwise those whose `folderId` is reachable from it) that match the
search text case-insensitively in title or content; it is sorted by
descending `updatedAt`; and it is a permutation of a candidate list in the
notes' original order whose per-timestamp groups it preserves (stable
ties). -/
theorem C3_visibleNotes_scope_search_sort (folders : List Folder) (notes : List Note)
    (afid q : String) (v : List Note) (h : visibleNotes folders notes afid q = some v) :
    (∀ n, n ∈ v ↔ n ∈ notes ∧ (afid = "all" ∨ Reach folders afid n.folderId) ∧
        (q = "" ∨ strIncludes n.title.toLower q.toLower = true ∨
          strIncludes n.content.toLower q.toLower = true)) ∧
    v.Pairwise (fun a b => b.updatedAt ≤ a.updatedAt) ∧
    ∃ cand, List.Sublist cand notes ∧ (∀ n, n ∈ cand ↔ n ∈ v) ∧
      ∀ t, v.filter (fun n => n.updatedAt = t) = cand.filter (fun n => n.updatedAt = t) := by
  rcases visibleNotes_spec h with ⟨cand, hsub, hmem, rfl⟩
  refine ⟨fun n => ?_, mergeSort_sorted_desc cand,
    cand, hsub, fun n => (List.mem_mergeSort).symm, fun t => mergeSort_filter_updatedAt cand t⟩
  rw [List.mem_mergeSort, hmem n, noteMatchesSearch_true]

def nTie : Note :=
  { id := "n3", folderId := "b", title := "Call", content := "second", createdAt := 5, updatedAt := 20 }

theorem visibleNotes_demo_eq :
    visibleNotes [fTop, fSub, fOther] [nSub, nOther, nTie] "a" "" = some [nTie, nSub] := by
  have h1 : visibleNotes [fTop, fSub, fOther] [nSub, nOther, nTie] "a" "" =
      some (([nSub, nTie]).mergeSort byUpdatedAtDesc) := rfl
  have h2 : ([nSub, nTie]).mergeSort byUpdatedAtDesc = [nTie, nSub] := by
    simp [List.mergeSort, byUpdatedAtDesc, nSub, nTie]
  rw [h1, h2]

theorem C3_witness :
    visibleNotes [fTop, fSub, fOther] [nSub, nOther, nTie] "a" "" = some [nTie, nSub] ∧
    ((∀ n, n ∈ [nTie, nSub] ↔ n ∈ [nSub, nOther, nTie] ∧
        ("a" = "all" ∨ Reach [fTop, fSub, fOther] "a" n.folderId) ∧
        ("" = "" ∨ strIncludes n.title.toLower ("" : String).toLower = true ∨
          strIncludes n.content.toLower ("" : String).toLower = true)) ∧
     ([nTie, nSub]).Pairwise (fun a b => b.updatedAt ≤ a.updatedAt) ∧
     ∃ cand, List.Sublist cand [nSub, nOther, nTie] ∧ (∀ n, n ∈ cand ↔ n ∈ [nTie, nSub]) ∧
       ∀ t, ([nTie, nSub]).filter (fun n => n.updatedAt = t) =
         cand.filter (fun n => n.updatedAt = t)) :=
  ⟨visibleNotes_demo_eq,
   C3_visibleNotes_scope_search_sort [fTop, fSub, fOther] [nSub, nOther, nTie] "a" ""
     [nTie, nSub] visibleNotes_demo_eq⟩

-- ── Rename, update, delete-note lemmas ───────────────────────────────────────

theorem map_eq_self_of {α : Type} {l : List α} {f : α → α} (h : ∀ a ∈ l, f a = a) :
    l.map f = l := by
  induction l with
  | nil => rfl
  | cons a l ih =>
    rw [List.map_cons, h a (List.mem_cons_self a l),
      ih (fun b hb => h b (List.mem_cons_of_mem a hb))]

theorem map_congr_mem {α β : Type} {l : List α} {f g : α → β} (h : ∀ a ∈ l, f a = g a) :
    l.map f = l.map g := by
  induction l with
  | nil => rfl
  | cons a l ih =>
    rw [List.map_cons, List.map_cons, h a (List.mem_cons_self a l),
      ih (fun b hb => h b (List.mem_cons_of_mem a hb))]

theorem renamedName_ne_empty (draft : String) : renamedName draft ≠ "" := by
  by_cases h : strTrim draft = "" <;> simp [renamedName, h]

/-- C7: committing a rename sets the target folder's name to the trimmed
draft, or to the literal "Untitled" when the trimmed draft is empty; the
resulting name is never empty; and committing the same rename twice equals
committing it once. -/
theorem C7_commitRename_trim_fallback (folders : List Folder) (draft id : String)
    (hid : ∃ f ∈ folders, f.id = id) :
    (∃ f ∈ commitRename folders draft id, f.id = id) ∧
    (∀ f ∈ commitRename folders draft id, f.id = id →
      f.name = (if strTrim draft = "" then "Untitled" else strTrim draft) ∧ f.name ≠ "") ∧
    commitRename (commitRename folders draft id) draft id = commitRename folders draft id := by
  refine ⟨?_, ?_, ?_⟩
  · rcases hid with ⟨f, hf, hfid⟩
    refine ⟨{ f with name := renamedName draft }, ?_, hfid⟩
    unfold commitRename
    exact List.mem_map.mpr ⟨f, hf, by rw [if_pos hfid]⟩
  · intro f' hf' hf'id
    rcases List.mem_map.mp hf' with ⟨a, -, ha⟩
    by_cases haid : a.id = id
    · rw [if_pos haid] at ha
      rw [← ha]
      exact ⟨rfl, renamedName_ne_empty draft⟩
    · rw [if_neg haid] at ha
      rw [← ha] at hf'id
      exact absurd hf'id haid
  · unfold commitRename
    rw [List.map_map]
    apply map_congr_mem
    intro a _
    simp only [Function.comp]
    by_cases ha : a.id = id <;> simp [ha]

theorem C7_witness :
    (∃ f ∈ [fTop], f.id = "a") ∧
    ((∃ f ∈ commitRename [fTop] "   " "a", f.id = "a") ∧
     (∀ f ∈ commitRename [fTop] "   " "a", f.id = "a" →
       f.name = (if strTrim "   " = "" then "Untitled" else strTrim "   ") ∧ f.name ≠ "") ∧
     commitRename (commitRename [fTop] "   " "a") "   " "a" = commitRename [fTop] "   " "a") :=
  ⟨by decide, C7_commitRename_trim_fallback [fTop] "   " "a" (by decide)⟩

/-- C8: `updateNote`, `deleteNote` and `commitRename` on an id that no
note (respectively folder) carries leave the collection exactly unchanged:
the unknown-id case is a silent no-op. -/
theorem C8_unknown_id_noop (notes : List Note) (folders : List Folder) (id : String)
    (p : NotePatch) (now : Nat) (draft : String) (aid : Option String)
    (hn : ∀ n ∈ notes, n.id ≠ id) (hf : ∀ f ∈ folders, f.id ≠ id) :
    updateNote notes id p now = notes ∧
    (deleteNote notes aid id).1 = notes ∧
    commitRename folders draft id = folders := by
  refine ⟨?_, ?_, ?_⟩
  · exact map_eq_self_of (fun n h => if_neg (hn n h))
  · exact List.filter_eq_self.mpr (fun n h => by simpa using hn n h)
  · exact map_eq_self_of (fun f h => if_neg (hf f h))

theorem C8_witness :
    (∀ n ∈ [nSub], n.id ≠ "nope") ∧ (∀ f ∈ [fTop], f.id ≠ "nope") ∧
    (updateNote [nSub] "nope" { title := some "T" } 99 = [nSub] ∧
     (deleteNote [nSub] (some "n1") "nope").1 = [nSub] ∧
     commitRename [fTop] "draft" "nope" = [fTop]) :=
  ⟨by decide, by decide,
   C8_unknown_id_noop [nSub] [fTop] "nope" { title := some "T" } 99 "draft" (some "n1")
     (by decide) (by decide)⟩

-- ── folderPath and addNote ───────────────────────────────────────────────────

def fEmptyId : Folder := { id := "", parentId := none, name := "P", createdAt := 0 }
def fEmptyChild : Folder := { id := "c", parentId := some "", name := "C", createdAt := 1 }

/-- C9 counterexample: a folder whose `parentId` is the empty string has a
parent that exists (a folder whose id is `""`), yet `folderPath` renders
only the folder's own name, because `if (folder.parentId)` in the source
treats the empty string as falsy. -/
theorem C9_counterexample :
    (∃ f ∈ [fEmptyId, fEmptyChild], f.id = "c" ∧ f.parentId = some "") ∧
    (∃ g ∈ [fEmptyId, fEmptyChild], g.id = "" ∧ g.name = "P") ∧
    folderPath [fEmptyId, fEmptyChild] "c" = "C" ∧
    folderPath [fEmptyId, fEmptyChild] "c" ≠ "P / C" := by
  refine ⟨⟨fEmptyChild, by decide, by decide, by decide⟩,
    ⟨fEmptyId, by decide, by decide, by decide⟩, by decide, by decide⟩

/-- C9 (amended): `folderPath` returns "Unknown" when no folder has the
queried id; the folder's own name when its `parentId` is absent or the
empty string (JS falsiness); and `parentName / name` when the `parentId`
is a non-empty string that resolves to an existing folder. -/
theorem C9_folderPath_breadcrumb (folders : List Folder) (fid : String) :
    (folders.find? (fun f => f.id = fid) = none → folderPath folders fid = "Unknown") ∧
    (∀ folder, folders.find? (fun f => f.id = fid) = some folder →
      ((folder.parentId = none ∨ folder.parentId = some "") →
        folderPath folders fid = folder.name) ∧
      (∀ pid, folder.parentId = some pid → pid ≠ "" →
        ∀ parent, folders.find? (fun f => f.id = pid) = some parent →
          folderPath folders fid = parent.name ++ " / " ++ folder.name)) := by
  constructor
  · intro h
    unfold folderPath
    rw [h]
  · intro folder hfind
    constructor
    · rintro (hp | hp)
      · simp [folderPath, hfind, hp]
      · simp [folderPath, hfind, hp]
    · intro pid hp hne parent hparent
      simp [folderPath, hfind, hp, hne, hparent]

theorem C9_witness :
    folderPath [fTop, fSub] "b" = "Acme / Billing" ∧
    folderPath [fTop, fSub] "q" = "Unknown" :=
  ⟨((C9_folderPath_breadcrumb [fTop, fSub] "b").2 fSub (by decide)).2 "a" (by decide)
      (by decide) fTop (by decide),
   (C9_folderPath_breadcrumb [fTop, fSub] "q").1 (by decide)⟩

def fOrphan : Folder := { id := "s", parentId := some "x", name := "Stray", createdAt := 0 }

def orphanState : AppState :=
  { folders := [fOrphan], notes := [], activeFolderId := "all", activeNoteId := none }

/-- C10 counterexample: with the "all" sentinel active and a non-empty
folder list that contains no top-level folder, `addNote` is a no-op — no
note is created, so the new note's `folderId` is not the id of "the first
top-level folder" as the claim asserts for every non-empty folder list. -/
theorem C10_counterexample :
    orphanState.activeFolderId = "all" ∧ orphanState.folders ≠ [] ∧
    addNote orphanState "n9" 7 = orphanState ∧
    (addNote orphanState "n9" 7).notes = [] := by
  refine ⟨by decide, by decide, by decide, by decide⟩

/-- C10 (amended): with the "all" sentinel active, `addNote` is a no-op
when the folder list has no top-level folder (in particular when it is
empty); otherwise the new note is prepended with the first top-level
folder's id as its `folderId`, that folder becomes active, and the new
note becomes the active note. -/
theorem C10_addNote_all_sentinel (s : AppState) (newId : String) (now : Nat)
    (hall : s.activeFolderId = "all") :
    (s.folders.find? (fun f => f.parentId = none) = none → addNote s newId now = s) ∧
    (∀ t, s.folders.find? (fun f => f.parentId = none) = some t →
      addNote s newId now =
        { s with
          notes := newNote newId t.id now :: s.notes,
          activeFolderId := t.id,
          activeNoteId := some newId }) := by
  constructor
  · intro hnone
    unfold addNote
    rw [if_pos hall]
    by_cases hlen : s.folders.length = 0
    · rw [if_pos hlen]
    · rw [if_neg hlen, hnone]
  · intro t ht
    have hlen : ¬ s.folders.length = 0 := by
      intro h0
      rw [List.length_eq_zero] at h0
      rw [h0] at ht
      simp at ht
    unfold addNote
    rw [if_pos hall, if_neg hlen, ht]

def demoAllState : AppState :=
  { folders := [fTop, fSub, fOther], notes := [nSub, nOther],
    activeFolderId := "all", activeNoteId := none }

theorem C10_witness :
    demoAllState.activeFolderId = "all" ∧
    addNote demoAllState "n5" 50 =
      { demoAllState with
        notes := newNote "n5" "a" 50 :: demoAllState.notes,
        activeFolderId := "a",
        activeNoteId := some "n5" } :=
  ⟨rfl, (C10_addNote_all_sentinel demoAllState "n5" 50 rfl).2 fTop (by decide)⟩
